import Mathlib

/-!
Verification of the mines-and-knights repository.

Part 1 embeds `minesweeper/minesweeper.py`: the `Sentence` constraint type,
the `MinesweeperAI` knowledge base (`mark_mine`, `mark_safe`, `add_knowledge`
split into its commented phases, `infer_new_sentences`, the two move
policies).  Python `set`s of cells become `Finset (ℤ × ℤ)`; Python's
unspecified set-iteration order is determinized by iterating in a canonical
sorted order (all stated properties are independent of that order, and for
the marking loops the final state provably does not depend on it).
`random.choice` is modelled by the candidate list the code builds, with the
returned element determinized to the head of that list.

Part 2 embeds `knights/logic.py`: the propositional sentence AST,
`evaluate`, `symbols` and `model_check`.  A Python truth-model dict is
modelled as a total assignment `String → Bool`; `model_check` only ever
evaluates under models that assign every symbol of the two sentences, so the
`KeyError` branch of `Symbol.evaluate` is unreachable there.
-/

namespace Mines

/-- A board cell: a pair of integer coordinates (Python tuple of ints). -/
abbrev Cell := ℤ × ℤ

/-- `in_range(height, width, cell)` from minesweeper.py. -/
def in_range (height width : ℤ) (cell : Cell) : Bool :=
  decide (0 ≤ cell.1) && decide (cell.1 < height) &&
    decide (0 ≤ cell.2) && decide (cell.2 < width)

/-- `Sentence`: a set of cells together with a mine count.
Python `__eq__` compares the cell set and the count, which is exactly
structural equality of this structure. -/
structure Sentence where
  cells : Finset Cell
  count : ℤ
deriving DecidableEq

/-- `Sentence.known_mines`: returns the cell set when
`len(self.cells) == self.count and self.count != 0`, otherwise the Python
function falls through and returns `None`. -/
def Sentence.known_mines (s : Sentence) : Option (Finset Cell) :=
  if (s.cells.card : ℤ) = s.count ∧ s.count ≠ 0 then some s.cells else none

/-- `Sentence.known_safes`: returns the cell set when `self.count == 0`,
otherwise returns the empty set. -/
def Sentence.known_safes (s : Sentence) : Finset Cell :=
  if s.count = 0 then s.cells else ∅

/-- `Sentence.mark_mine`: remove the cell and decrement the count when the
cell is a member, otherwise do nothing. -/
def Sentence.mark_mine (s : Sentence) (cell : Cell) : Sentence :=
  if cell ∈ s.cells then ⟨s.cells.erase cell, s.count - 1⟩ else s

/-- `Sentence.mark_safe`: remove the cell (count unchanged) when the cell is
a member, otherwise do nothing. -/
def Sentence.mark_safe (s : Sentence) (cell : Cell) : Sentence :=
  if cell ∈ s.cells then ⟨s.cells.erase cell, s.count⟩ else s

/-- Lexicographic order on cells, used to iterate Python sets of cells in a
canonical (deterministic) order. -/
def cellLe (a b : Cell) : Prop :=
  a.1 < b.1 ∨ (a.1 = b.1 ∧ a.2 ≤ b.2)

instance : DecidableRel cellLe := fun a b => by
  unfold cellLe; exact inferInstance

instance : IsTrans Cell cellLe := by
  constructor
  intro a b c hab hbc
  unfold cellLe at hab hbc ⊢
  omega

instance : IsAntisymm Cell cellLe := by
  constructor
  intro a b hab hba
  unfold cellLe at hab hba
  have h1 : a.1 = b.1 := by omega
  have h2 : a.2 = b.2 := by omega
  exact Prod.ext_iff.mpr ⟨h1, h2⟩

instance : IsTotal Cell cellLe := by
  constructor
  intro a b
  unfold cellLe
  omega

/-- Insert a cell into a list before the first element it precedes
(insertion-sort step for `cellLe`). -/
def insertCell (c : Cell) : List Cell → List Cell
  | [] => [c]
  | x :: xs => if cellLe c x then c :: x :: xs else x :: insertCell c xs

instance : LeftCommutative insertCell := by
  constructor
  intro a b l
  induction l with
  | nil =>
    by_cases hab : cellLe a b <;> by_cases hba : cellLe b a
    · have : a = b := IsAntisymm.antisymm a b hab hba
      subst this; rfl
    · simp [insertCell, hab, hba]
    · simp [insertCell, hab, hba]
    · rcases IsTotal.total (r := cellLe) a b with h | h
      · exact absurd h hab
      · exact absurd h hba
  | cons x xs ih =>
    by_cases hbx : cellLe b x <;> by_cases hax : cellLe a x
    · by_cases hab : cellLe a b <;> by_cases hba : cellLe b a
      · have : a = b := IsAntisymm.antisymm a b hab hba
        subst this; rfl
      · simp [insertCell, hab, hba, hax, hbx]
      · simp [insertCell, hab, hba, hax, hbx]
      · rcases IsTotal.total (r := cellLe) a b with h | h
        · exact absurd h hab
        · exact absurd h hba
    · have hab : ¬ cellLe a b := fun h => hax (Trans.trans h hbx)
      simp [insertCell, hab, hax, hbx]
    · have hba : ¬ cellLe b a := fun h => hbx (Trans.trans h hax)
      simp [insertCell, hba, hax, hbx]
    · simp [insertCell, hax, hbx, ih]

/-- The elements of a finite set of cells, listed in a canonical order
(insertion sort over the underlying multiset; well defined because
`insertCell` is left-commutative). -/
def sortedCells (t : Finset Cell) : List Cell :=
  Multiset.foldr insertCell [] t.val

/-- State of a `MinesweeperAI` object: board dimensions, the three global
cell sets and the ordered knowledge base. -/
structure AIState where
  height : ℤ
  width : ℤ
  moves_made : Finset Cell
  mines : Finset Cell
  safes : Finset Cell
  knowledge : List Sentence
deriving DecidableEq

/-- `MinesweeperAI.__init__(h, w)`. -/
def initAI (h w : ℤ) : AIState :=
  ⟨h, w, ∅, ∅, ∅, []⟩

/-- `MinesweeperAI.mark_mine`: add the cell to the global mine set and call
`Sentence.mark_mine` on every sentence of the knowledge base. -/
def AIState.mark_mine (s : AIState) (cell : Cell) : AIState :=
  { s with mines := insert cell s.mines,
           knowledge := s.knowledge.map (fun t => t.mark_mine cell) }

/-- `MinesweeperAI.mark_safe`: add the cell to the global safe set and call
`Sentence.mark_safe` on every sentence of the knowledge base. -/
def AIState.mark_safe (s : AIState) (cell : Cell) : AIState :=
  { s with safes := insert cell s.safes,
           knowledge := s.knowledge.map (fun t => t.mark_safe cell) }

/-- The eight `(di, dj)` offsets of the neighbourhood loops, in the order the
Python nested loops produce them (`(0, 0)` skipped). -/
def neighbor_deltas : List Cell :=
  [(-1, -1), (-1, 0), (-1, 1), (0, -1), (0, 1), (1, -1), (1, 0), (1, 1)]

/-- The 8-neighbourhood of a cell, in Python loop order. -/
def neighbors (cell : Cell) : List Cell :=
  neighbor_deltas.map (fun d => (cell.1 + d.1, cell.2 + d.2))

/-- `Minesweeper.nearby_mines`, with the hidden board represented by its set
`M` of mined cells: count the in-range neighbours that are mined. -/
def nearby_mines (height width : ℤ) (M : Finset Cell) (cell : Cell) : ℤ :=
  (((neighbors cell).countP
      (fun n => in_range height width n && decide (n ∈ M)) : ℕ) : ℤ)

/-- Steps 1-3 of `MinesweeperAI.add_knowledge`: record the move, mark the
revealed cell safe, scan the 8-neighbourhood (counting neighbours already
known to be mines, collecting in-range neighbours in neither `safes` nor
`mines`) and append the resulting sentence.  The Python code performs the
count and the collection in one loop over the neighbourhood; the two are
split here into a count and a filter over the same neighbour list. -/
def ingest (s : AIState) (cell : Cell) (count : ℤ) : AIState :=
  let s1 : AIState := { s with moves_made := insert cell s.moves_made }
  let s2 : AIState := s1.mark_safe cell
  let count_mines : ℤ :=
    (((neighbors cell).countP (fun n => decide (n ∈ s2.mines)) : ℕ) : ℤ)
  let und : List Cell :=
    (neighbors cell).filter
      (fun n => in_range s2.height s2.width n &&
        decide (n ∉ s2.safes) && decide (n ∉ s2.mines))
  { s2 with knowledge := s2.knowledge ++ [⟨und.toFinset, count - count_mines⟩] }

/-- `for cell in ms.copy(): self.mark_mine(cell)` — iterate a set snapshot,
marking every element as a mine (canonical order; the resulting state does
not depend on the order). -/
def mark_mine_all (s : AIState) (cs : Finset Cell) : AIState :=
  (sortedCells cs).foldl AIState.mark_mine s

/-- `for cell in ss.copy(): self.mark_safe(cell)` — iterate a set snapshot,
marking every element as safe. -/
def mark_safe_all (s : AIState) (cs : Finset Cell) : AIState :=
  (sortedCells cs).foldl AIState.mark_safe s

/-- The body of the propagation loop of `add_knowledge` for the sentence at
position `i` of the knowledge base.  Python first tests
`sentence.known_mines()` (truthy iff it returns a set, which is then
necessarily nonempty) and marks its elements; it then re-reads the *mutated*
sentence object for the `known_safes()` test, so the second phase reads the
sentence at `i` in the updated state.  The Python truthiness guard on
`known_safes()` is dropped because marking an empty set is a no-op. -/
def mine_phase (s : AIState) (i : ℕ) : AIState :=
  match s.knowledge[i]? with
  | some t =>
    match t.known_mines with
    | some ms => mark_mine_all s ms
    | none => s
  | none => s

/-- The `known_safes` half of the loop body: re-read the (possibly mutated)
sentence at `i` and mark its `known_safes` cells. -/
def safe_phase (s : AIState) (i : ℕ) : AIState :=
  match s.knowledge[i]? with
  | some t => mark_safe_all s t.known_safes
  | none => s

def process_sentence (s : AIState) (i : ℕ) : AIState :=
  safe_phase (mine_phase s i) i

/-- Step 4 of `add_knowledge`: one pass of `for sentence in self.knowledge`.
The list object is never appended to during the loop (marking only mutates
sentences in place and preserves the length), so the pass visits exactly the
indices `0, …, len-1` of the list at loop entry. -/
def propagate (s : AIState) : AIState :=
  (List.range s.knowledge.length).foldl process_sentence s

/-- The sentence derived from a subset pair:
`Sentence(sentence2.cells - sentence1.cells, sentence2.count - sentence1.count)`. -/
def derive (s1 s2 : Sentence) : Sentence :=
  ⟨s2.cells \ s1.cells, s2.count - s1.count⟩

/-- Body of the inner loop of `infer_new_sentences`: given the knowledge
base `K`, the outer sentence `s1` and the staged list `acc2`, process the
inner sentence `s2`. -/
def inferBody (K : List Sentence) (s1 : Sentence)
    (acc2 : List Sentence) (s2 : Sentence) : List Sentence :=
  if s1 ≠ s2 ∧ s1.cells ⊆ s2.cells then
    if derive s1 s2 ∉ K ∧ derive s1 s2 ∉ acc2 then acc2 ++ [derive s1 s2]
    else acc2
  else acc2

/-- The inner loop of `infer_new_sentences` (over `sentence2`). -/
def inferInner (K : List Sentence) (s1 : Sentence)
    (acc : List Sentence) : List Sentence :=
  K.foldl (inferBody K s1) acc

/-- The `new_knowledge` list built by `infer_new_sentences`: for every
ordered pair of sentences of `K`, if they are distinct (by structural
equality) and the first's cells are a subset of the second's, stage the
derived sentence unless it is already in `K` or already staged. -/
def inferNew (K : List Sentence) : List Sentence :=
  K.foldl (fun acc s1 => inferInner K s1 acc) []

/-- `MinesweeperAI.infer_new_sentences`: extend the knowledge base with the
newly inferred sentences. -/
def infer_new_sentences (s : AIState) : AIState :=
  { s with knowledge := s.knowledge ++ inferNew s.knowledge }

/-- `MinesweeperAI.add_knowledge`: ingest the reveal (steps 1-3), run the
propagation pass once (step 4), then the subset-elimination pass once
(step 5). -/
def add_knowledge (s : AIState) (cell : Cell) (count : ℤ) : AIState :=
  infer_new_sentences (propagate (ingest s cell count))

/-- `MinesweeperAI.make_safe_move`: the first safe cell not yet played, if
any (Python iterates the safe set in unspecified order; here the canonical
order is used — the stated properties do not depend on the choice). -/
def make_safe_move (s : AIState) : Option Cell :=
  (sortedCells s.safes).find? (fun c => decide (c ∉ s.moves_made))

/-- The `moves` list built by `MinesweeperAI.make_random_move`: all board
cells not in `moves_made` and not in `mines`, in loop order. -/
def candidate_moves (s : AIState) : List Cell :=
  (List.range s.height.toNat).flatMap (fun (i : ℕ) =>
    (List.range s.width.toNat).filterMap (fun (j : ℕ) =>
      if ((i : ℤ), (j : ℤ)) ∉ s.moves_made ∧ ((i : ℤ), (j : ℤ)) ∉ s.mines
      then some ((i : ℤ), (j : ℤ)) else none))

/-- `MinesweeperAI.make_random_move`: `random.choice(moves)` when the
candidate list is nonempty, else `None`.  The random choice is determinized
to the first candidate; the verified properties hold for every element of
the candidate list, hence for any choice. -/
def make_random_move (s : AIState) : Option Cell :=
  (candidate_moves s).head?

/-- The states reachable by an arbitrary sequence of public knowledge-base
operations from a fresh `MinesweeperAI` (the move-selection functions do not
modify the state and therefore need no constructors). -/
inductive Reachable : AIState → Prop where
  | init (h w : ℤ) : Reachable (initAI h w)
  | mark_mine (s : AIState) (c : Cell) :
      Reachable s → Reachable (s.mark_mine c)
  | mark_safe (s : AIState) (c : Cell) :
      Reachable s → Reachable (s.mark_safe c)
  | add (s : AIState) (c : Cell) (n : ℤ) :
      Reachable s → Reachable (add_knowledge s c n)

/-- The states reachable by a play that is consistent with a fixed hidden
mine set `M` lying inside the board: reveals are of non-mine cells with
their true `nearby_mines` count, direct `mark_mine` calls only concern cells
of `M` and direct `mark_safe` calls only concern cells outside `M`. -/
inductive Plays (M : Finset Cell) : AIState → Prop where
  | init (h w : ℤ) (hM : ∀ c ∈ M, in_range h w c = true) :
      Plays M (initAI h w)
  | mark_mine (s : AIState) (c : Cell) (hs : Plays M s) (hc : c ∈ M) :
      Plays M (s.mark_mine c)
  | mark_safe (s : AIState) (c : Cell) (hs : Plays M s) (hc : c ∉ M) :
      Plays M (s.mark_safe c)
  | add (s : AIState) (c : Cell) (hs : Plays M s) (hc : c ∉ M) :
      Plays M (add_knowledge s c (nearby_mines s.height s.width M c))

/-- A sentence is sound for the mine set `M` when its count is exactly the
number of its cells that are mined. -/
def SoundSentence (M : Finset Cell) (t : Sentence) : Prop :=
  ((t.cells ∩ M).card : ℤ) = t.count

/-- Soundness of a knowledge-base state with respect to the hidden mine set
`M`: every confirmed mine is mined, no confirmed safe cell is mined, every
sentence counts its mined cells exactly, and `M` lies inside the board. -/
def Sound (M : Finset Cell) (s : AIState) : Prop :=
  s.mines ⊆ M ∧ (∀ c ∈ s.safes, c ∉ M) ∧
    (∀ t ∈ s.knowledge, SoundSentence M t) ∧
    (∀ c ∈ M, in_range s.height s.width c = true)

/-- No sentence of the state contains a cell that is in `mines` unless it
was already in `M0`, nor a cell in `safes` unless already in `S0`.  Used
with `M0`/`S0` the global sets at the start of an `add_knowledge` call. -/
def NoNewMarks (M0 S0 : Finset Cell) (s : AIState) : Prop :=
  ∀ t ∈ s.knowledge, ∀ x ∈ t.cells,
    (x ∈ s.mines → x ∈ M0) ∧ (x ∈ s.safes → x ∈ S0)

/-- A state with three sentences on which the subset-elimination pass is not
idempotent: the first pass derives `{(0,3)} = 0`, and only the second pass
can then derive `{(0,4)} = 1` from it and `{(0,3),(0,4)} = 1`. -/
def stThree : AIState :=
  ⟨8, 8, ∅, ∅, ∅,
    [⟨{((0 : ℤ), (1 : ℤ)), ((0 : ℤ), (2 : ℤ)), ((0 : ℤ), (3 : ℤ))}, 1⟩,
     ⟨{((0 : ℤ), (1 : ℤ)), ((0 : ℤ), (2 : ℤ))}, 1⟩,
     ⟨{((0 : ℤ), (3 : ℤ)), ((0 : ℤ), (4 : ℤ))}, 1⟩]⟩

/-- A state holding the single prior constraint `{(0,1),(1,0)} = 1` on a 3×3
board; revealing `(0,0)` with count 1 then derives `{(1,1)} = 0` by subset
elimination. -/
def stPair : AIState :=
  ⟨3, 3, ∅, ∅, ∅, [⟨{((0 : ℤ), (1 : ℤ)), ((1 : ℤ), (0 : ℤ))}, 1⟩]⟩

/-- A state whose safe set holds the single unplayed cell `(0,0)` of a 1×1
board. -/
def stSafe : AIState :=
  ⟨1, 1, ∅, ∅, {((0 : ℤ), (0 : ℤ))}, []⟩

end Mines

namespace Knights

/-- The sentence AST of `knights/logic.py` (`Symbol`, `Not`, `And`, `Or`,
`Implication`, `Biconditional`).  `And`/`Or` hold their operand lists, as in
the source. -/
inductive PSentence where
  | Symbol (name : String)
  | Not (operand : PSentence)
  | And (conjuncts : List PSentence)
  | Or (disjuncts : List PSentence)
  | Implication (antecedent consequent : PSentence)
  | Biconditional (left right : PSentence)

/-- `evaluate(model)` for each sentence class, with the truth model as a
total assignment (see the file comment). -/
def evaluate : PSentence → (String → Bool) → Bool
  | .Symbol n, model => model n
  | .Not p, model => !(evaluate p model)
  | .And cs, model => cs.attach.all (fun c => evaluate c.1 model)
  | .Or ds, model => ds.attach.any (fun d => evaluate d.1 model)
  | .Implication a c, model => !(evaluate a model) || evaluate c model
  | .Biconditional l r, model =>
      (evaluate l model && evaluate r model) ||
        (!(evaluate l model) && !(evaluate r model))
decreasing_by
  all_goals simp_wf
  all_goals first
    | (have h := List.sizeOf_lt_of_mem c.2; omega)
    | (have h := List.sizeOf_lt_of_mem d.2; omega)
    | omega

/-- `symbols()` for each sentence class: the set of symbol names occurring
in the sentence, as a duplicate-free list (Python uses `set` unions). -/
def symbols : PSentence → List String
  | .Symbol n => [n]
  | .Not p => symbols p
  | .And cs => (cs.attach.map (fun c => symbols c.1)).foldr (· ∪ ·) []
  | .Or ds => (ds.attach.map (fun d => symbols d.1)).foldr (· ∪ ·) []
  | .Implication a c => symbols a ∪ symbols c
  | .Biconditional l r => symbols l ∪ symbols r
decreasing_by
  all_goals simp_wf
  all_goals first
    | (have h := List.sizeOf_lt_of_mem c.2; omega)
    | (have h := List.sizeOf_lt_of_mem d.2; omega)
    | omega

/-- `model_true = model.copy(); model_true[p] = b`: functional update of a
truth model. -/
def updateB (model : String → Bool) (p : String) (b : Bool) : String → Bool :=
  fun x => if x = p then b else model x

/-- The recursive helper `check_all` of `model_check`: with no symbols left,
the query must hold whenever the knowledge does; otherwise pick the next
unassigned symbol (Python pops an arbitrary set element; here the head of
the remaining list) and require entailment under both extensions. -/
def check_all (knowledge query : PSentence) :
    List String → (String → Bool) → Bool
  | [], model =>
      if evaluate knowledge model then evaluate query model else true
  | p :: remaining, model =>
      check_all knowledge query remaining (updateB model p true) &&
        check_all knowledge query remaining (updateB model p false)

/-- `model_check(knowledge, query)`: enumerate all assignments of the
symbols of both sentences, starting from the empty model. -/
def model_check (knowledge query : PSentence) : Bool :=
  check_all knowledge query
    (symbols knowledge ∪ symbols query) (fun _ => false)

/-- Override a model by `f` on the symbols of `syms` (specification device
for `check_all`). -/
def overrideOn (syms : List String) (f model : String → Bool) :
    String → Bool :=
  fun x => if x ∈ syms then f x else model x

end Knights

namespace Knights

/-- `List.all` only depends on the value of the predicate on members. -/
theorem list_all_congr {α : Type} (l : List α) (f g : α → Bool)
    (h : ∀ a ∈ l, f a = g a) : l.all f = l.all g := by
  induction l with
  | nil => rfl
  | cons x xs ih =>
    simp only [List.all_cons, h x (by simp)]
    rw [ih (fun a ha => h a (by simp [ha]))]

/-- `List.any` only depends on the value of the predicate on members. -/
theorem list_any_congr {α : Type} (l : List α) (f g : α → Bool)
    (h : ∀ a ∈ l, f a = g a) : l.any f = l.any g := by
  induction l with
  | nil => rfl
  | cons x xs ih =>
    simp only [List.any_cons, h x (by simp)]
    rw [ih (fun a ha => h a (by simp [ha]))]

/-- Membership in an iterated union of symbol lists. -/
theorem mem_foldr_union (x : String) (l : List (List String)) :
    x ∈ l.foldr (· ∪ ·) [] ↔ ∃ ys ∈ l, x ∈ ys := by
  induction l with
  | nil => simp
  | cons a l ih => simp [List.mem_union_iff, ih]

/-- Membership in `symbols (And cs)` comes from some conjunct. -/
theorem mem_symbols_And {x : String} {cs : List PSentence} :
    x ∈ symbols (.And cs) ↔ ∃ c ∈ cs, x ∈ symbols c := by
  rw [symbols, mem_foldr_union]
  constructor
  · rintro ⟨ys, hys, hx⟩
    rcases List.mem_map.mp hys with ⟨c, _, rfl⟩
    exact ⟨c.1, c.2, hx⟩
  · rintro ⟨c, hc, hx⟩
    exact ⟨symbols c, List.mem_map.mpr ⟨⟨c, hc⟩, List.mem_attach _ _, rfl⟩, hx⟩

/-- Membership in `symbols (Or ds)` comes from some disjunct. -/
theorem mem_symbols_Or {x : String} {ds : List PSentence} :
    x ∈ symbols (.Or ds) ↔ ∃ d ∈ ds, x ∈ symbols d := by
  rw [symbols, mem_foldr_union]
  constructor
  · rintro ⟨ys, hys, hx⟩
    rcases List.mem_map.mp hys with ⟨d, _, rfl⟩
    exact ⟨d.1, d.2, hx⟩
  · rintro ⟨d, hd, hx⟩
    exact ⟨symbols d, List.mem_map.mpr ⟨⟨d, hd⟩, List.mem_attach _ _, rfl⟩, hx⟩

/-- The symbol list of a sentence has no duplicates. -/
theorem symbols_nodup : ∀ s : PSentence, (symbols s).Nodup
  | .Symbol n => by simp [symbols]
  | .Not p => by rw [symbols]; exact symbols_nodup p
  | .And cs => by
    rw [symbols]
    induction (cs.attach.map (fun c => symbols c.1)) with
    | nil => simp
    | cons a l ih => exact List.Nodup.union a ih
  | .Or ds => by
    rw [symbols]
    induction (ds.attach.map (fun d => symbols d.1)) with
    | nil => simp
    | cons a l ih => exact List.Nodup.union a ih
  | .Implication a c => by rw [symbols]; exact List.Nodup.union _ (symbols_nodup c)
  | .Biconditional l r => by rw [symbols]; exact List.Nodup.union _ (symbols_nodup r)

/-- `evaluate` only depends on the model's values at the sentence's
symbols. -/
theorem evaluate_congr : ∀ (s : PSentence) (m₁ m₂ : String → Bool),
    (∀ x ∈ symbols s, m₁ x = m₂ x) → evaluate s m₁ = evaluate s m₂
  | .Symbol n, m₁, m₂, h => by
    rw [evaluate, evaluate]
    exact h n (by simp [symbols])
  | .Not p, m₁, m₂, h => by
    rw [evaluate, evaluate,
      evaluate_congr p m₁ m₂ (fun x hx => h x (by rw [symbols]; exact hx))]
  | .And cs, m₁, m₂, h => by
    rw [evaluate, evaluate]
    exact list_all_congr _ _ _ (fun c _ =>
      evaluate_congr c.1 m₁ m₂
        (fun x hx => h x (mem_symbols_And.mpr ⟨c.1, c.2, hx⟩)))
  | .Or ds, m₁, m₂, h => by
    rw [evaluate, evaluate]
    exact list_any_congr _ _ _ (fun d _ =>
      evaluate_congr d.1 m₁ m₂
        (fun x hx => h x (mem_symbols_Or.mpr ⟨d.1, d.2, hx⟩)))
  | .Implication a c, m₁, m₂, h => by
    rw [evaluate, evaluate,
      evaluate_congr a m₁ m₂
        (fun x hx => h x (by rw [symbols]; exact List.mem_union_left hx _)),
      evaluate_congr c m₁ m₂
        (fun x hx => h x (by rw [symbols]; exact List.mem_union_right _ hx))]
  | .Biconditional l r, m₁, m₂, h => by
    rw [evaluate, evaluate,
      evaluate_congr l m₁ m₂
        (fun x hx => h x (by rw [symbols]; exact List.mem_union_left hx _)),
      evaluate_congr r m₁ m₂
        (fun x hx => h x (by rw [symbols]; exact List.mem_union_right _ hx))]
decreasing_by
  all_goals simp_wf
  all_goals first
    | (have hs := List.sizeOf_lt_of_mem c.2; omega)
    | (have hs := List.sizeOf_lt_of_mem d.2; omega)
    | omega

/-- Overriding on the empty symbol list changes nothing. -/
theorem overrideOn_nil (f m : String → Bool) : overrideOn [] f m = m := by
  funext x
  simp [overrideOn]

/-- Peeling one symbol off an override. -/
theorem overrideOn_cons (p : String) (syms : List String)
    (f m : String → Bool) :
    overrideOn (p :: syms) f m = overrideOn syms f (updateB m p (f p)) := by
  funext x
  by_cases hx : x ∈ syms
  · simp [overrideOn, updateB, hx]
  · by_cases hxp : x = p <;> simp [overrideOn, updateB, hx, hxp]

/-- Specification of `check_all`: it returns `true` iff for every assignment
of the remaining symbols (overriding the partial model built so far), the
query holds whenever the knowledge does. -/
theorem check_all_spec (K Q : PSentence) (syms : List String) :
    syms.Nodup → ∀ m : String → Bool,
      (check_all K Q syms m = true ↔
        ∀ f : String → Bool,
          evaluate K (overrideOn syms f m) = true →
            evaluate Q (overrideOn syms f m) = true) := by
  induction syms with
  | nil =>
    intro _ m
    simp only [overrideOn_nil]
    constructor
    · intro h f
      rw [check_all] at h
      by_cases he : evaluate K m = true
      · rw [if_pos he] at h
        intro _; exact h
      · intro hK; exact absurd hK he
    · intro h
      rw [check_all]
      by_cases he : evaluate K m = true
      · rw [if_pos he]
        exact h (fun _ => false) he
      · rw [if_neg he]
  | cons p rest ih =>
    intro hnd m
    have hp : p ∉ rest := (List.nodup_cons.mp hnd).1
    have hr : rest.Nodup := (List.nodup_cons.mp hnd).2
    rw [check_all, Bool.and_eq_true, ih hr, ih hr]
    constructor
    · rintro ⟨h1, h2⟩ f
      rw [overrideOn_cons]
      cases hfp : f p
      · exact h2 f
      · exact h1 f
    · intro h
      constructor
      · intro f
        have hf := h (fun x => if x = p then true else f x)
        rw [overrideOn_cons] at hf
        have he : overrideOn rest (fun x => if x = p then true else f x)
            (updateB m p (if p = p then true else f p)) =
            overrideOn rest f (updateB m p true) := by
          funext x
          by_cases hx : x ∈ rest
          · have hxp : x ≠ p := fun e => hp (e ▸ hx)
            simp [overrideOn, updateB, hx, hxp]
          · simp [overrideOn, updateB, hx]
        rw [he] at hf
        exact hf
      · intro f
        have hf := h (fun x => if x = p then false else f x)
        rw [overrideOn_cons] at hf
        have he : overrideOn rest (fun x => if x = p then false else f x)
            (updateB m p (if p = p then false else f p)) =
            overrideOn rest f (updateB m p false) := by
          funext x
          by_cases hx : x ∈ rest
          · have hxp : x ≠ p := fun e => hp (e ▸ hx)
            simp [overrideOn, updateB, hx, hxp]
          · simp [overrideOn, updateB, hx]
        rw [he] at hf
        exact hf

end Knights

namespace Knights

/-- Claim C10: `model_check(knowledge, query)` returns `True` if and only if
every total truth assignment that makes the knowledge evaluate to `True`
also makes the query evaluate to `True` (classical propositional entailment
by exhaustive enumeration of the symbols of both sentences; `evaluate` only
reads a sentence's own symbols, so quantifying over total assignments is
equivalent to quantifying over assignments of the symbol union).  In
particular it returns `True` whenever the knowledge is unsatisfiable. -/
theorem model_check_entailment (K Q : PSentence) :
    (model_check K Q = true ↔
      ∀ m : String → Bool, evaluate K m = true → evaluate Q m = true) ∧
    ((∀ m : String → Bool, evaluate K m = false) → model_check K Q = true) := by
  have hnd : (symbols K ∪ symbols Q).Nodup :=
    List.Nodup.union _ (symbols_nodup Q)
  have hiff : model_check K Q = true ↔
      ∀ m : String → Bool, evaluate K m = true → evaluate Q m = true := by
    rw [model_check, check_all_spec K Q _ hnd (fun _ => false)]
    constructor
    · intro h m hK
      have e1 : evaluate K
          (overrideOn (symbols K ∪ symbols Q) m (fun _ => false)) =
          evaluate K m :=
        evaluate_congr _ _ _ (fun x hx => by
          unfold overrideOn
          rw [if_pos (List.mem_union_left hx _)])
      have e2 : evaluate Q
          (overrideOn (symbols K ∪ symbols Q) m (fun _ => false)) =
          evaluate Q m :=
        evaluate_congr _ _ _ (fun x hx => by
          unfold overrideOn
          rw [if_pos (List.mem_union_right _ hx)])
      have hm := h m
      rw [e1, e2] at hm
      exact hm hK
    · intro h f
      exact h _
  refine ⟨hiff, fun hunsat => hiff.mpr (fun m hK => ?_)⟩
  rw [hunsat m] at hK
  cases hK

/-- Witness for C10 at a concrete unsatisfiable knowledge base:
`P <=> ¬P` entails anything. -/
theorem model_check_entailment_witness :
    model_check (.Biconditional (.Symbol "P") (.Not (.Symbol "P")))
      (.Symbol "Q") = true :=
  (model_check_entailment
    (.Biconditional (.Symbol "P") (.Not (.Symbol "P"))) (.Symbol "Q")).2
    (fun m => by cases h : m "P" <;> simp [evaluate, h])

end Knights

namespace Mines

@[simp] theorem mark_mine_height (s : AIState) (c : Cell) :
    (s.mark_mine c).height = s.height := rfl
@[simp] theorem mark_mine_width (s : AIState) (c : Cell) :
    (s.mark_mine c).width = s.width := rfl
@[simp] theorem mark_mine_moves (s : AIState) (c : Cell) :
    (s.mark_mine c).moves_made = s.moves_made := rfl
@[simp] theorem mark_mine_mines (s : AIState) (c : Cell) :
    (s.mark_mine c).mines = insert c s.mines := rfl
@[simp] theorem mark_mine_safes (s : AIState) (c : Cell) :
    (s.mark_mine c).safes = s.safes := rfl
@[simp] theorem mark_mine_knowledge (s : AIState) (c : Cell) :
    (s.mark_mine c).knowledge = s.knowledge.map (fun t => t.mark_mine c) := rfl

@[simp] theorem mark_safe_height (s : AIState) (c : Cell) :
    (s.mark_safe c).height = s.height := rfl
@[simp] theorem mark_safe_width (s : AIState) (c : Cell) :
    (s.mark_safe c).width = s.width := rfl
@[simp] theorem mark_safe_moves (s : AIState) (c : Cell) :
    (s.mark_safe c).moves_made = s.moves_made := rfl
@[simp] theorem mark_safe_mines (s : AIState) (c : Cell) :
    (s.mark_safe c).mines = s.mines := rfl
@[simp] theorem mark_safe_safes (s : AIState) (c : Cell) :
    (s.mark_safe c).safes = insert c s.safes := rfl
@[simp] theorem mark_safe_knowledge (s : AIState) (c : Cell) :
    (s.mark_safe c).knowledge = s.knowledge.map (fun t => t.mark_safe c) := rfl

@[simp] theorem infer_height (s : AIState) :
    (infer_new_sentences s).height = s.height := rfl
@[simp] theorem infer_width (s : AIState) :
    (infer_new_sentences s).width = s.width := rfl
@[simp] theorem infer_moves (s : AIState) :
    (infer_new_sentences s).moves_made = s.moves_made := rfl
@[simp] theorem infer_mines (s : AIState) :
    (infer_new_sentences s).mines = s.mines := rfl
@[simp] theorem infer_safes (s : AIState) :
    (infer_new_sentences s).safes = s.safes := rfl
@[simp] theorem infer_knowledge (s : AIState) :
    (infer_new_sentences s).knowledge = s.knowledge ++ inferNew s.knowledge := rfl

@[simp] theorem ingest_height (s : AIState) (c : Cell) (n : ℤ) :
    (ingest s c n).height = s.height := rfl
@[simp] theorem ingest_width (s : AIState) (c : Cell) (n : ℤ) :
    (ingest s c n).width = s.width := rfl
@[simp] theorem ingest_moves (s : AIState) (c : Cell) (n : ℤ) :
    (ingest s c n).moves_made = insert c s.moves_made := rfl
@[simp] theorem ingest_mines (s : AIState) (c : Cell) (n : ℤ) :
    (ingest s c n).mines = s.mines := rfl
@[simp] theorem ingest_safes (s : AIState) (c : Cell) (n : ℤ) :
    (ingest s c n).safes = insert c s.safes := rfl

theorem ingest_knowledge (s : AIState) (c : Cell) (n : ℤ) :
    (ingest s c n).knowledge =
      s.knowledge.map (fun t => t.mark_safe c) ++
        [⟨((neighbors c).filter
            (fun x => in_range s.height s.width x &&
              decide (x ∉ insert c s.safes) && decide (x ∉ s.mines))).toFinset,
          n - (((neighbors c).countP (fun x => decide (x ∈ s.mines)) : ℕ) : ℤ)⟩] :=
  rfl

/-- Cell membership after `Sentence.mark_mine`. -/
theorem Sentence.mem_mark_mine {t : Sentence} {c x : Cell} :
    x ∈ (t.mark_mine c).cells ↔ x ∈ t.cells ∧ x ≠ c := by
  unfold Sentence.mark_mine
  by_cases hc : c ∈ t.cells
  · simp [hc, Finset.mem_erase, and_comm]
  · simp only [if_neg hc]
    constructor
    · intro hx
      exact ⟨hx, fun e => hc (e ▸ hx)⟩
    · exact fun hx => hx.1

/-- Cell membership after `Sentence.mark_safe`. -/
theorem Sentence.mem_mark_safe {t : Sentence} {c x : Cell} :
    x ∈ (t.mark_safe c).cells ↔ x ∈ t.cells ∧ x ≠ c := by
  unfold Sentence.mark_safe
  by_cases hc : c ∈ t.cells
  · simp [hc, Finset.mem_erase, and_comm]
  · simp only [if_neg hc]
    constructor
    · intro hx
      exact ⟨hx, fun e => hc (e ▸ hx)⟩
    · exact fun hx => hx.1

/-- Membership after one step of the inner subset-elimination loop. -/
theorem inferBody_mem (K : List Sentence) (a : Sentence)
    (acc : List Sentence) (s2 t : Sentence) :
    t ∈ inferBody K a acc s2 ↔
      t ∈ acc ∨
        (t ∉ K ∧ a ≠ s2 ∧ a.cells ⊆ s2.cells ∧ t = derive a s2) := by
  unfold inferBody
  by_cases h1 : a ≠ s2 ∧ a.cells ⊆ s2.cells
  · rw [if_pos h1]
    by_cases h2 : derive a s2 ∉ K ∧ derive a s2 ∉ acc
    · rw [if_pos h2]
      simp only [List.mem_append, List.mem_singleton]
      constructor
      · rintro (hx | rfl)
        · exact Or.inl hx
        · exact Or.inr ⟨h2.1, h1.1, h1.2, rfl⟩
      · rintro (hx | ⟨_, _, _, rfl⟩)
        · exact Or.inl hx
        · exact Or.inr rfl
    · rw [if_neg h2]
      constructor
      · exact Or.inl
      · rintro (hx | ⟨hK, _, _, rfl⟩)
        · exact hx
        · rcases not_and_or.mp h2 with h | h
          · exact absurd hK (by simpa using h)
          · simpa using h
  · rw [if_neg h1]
    constructor
    · exact Or.inl
    · rintro (hx | ⟨_, hne, hsub, _⟩)
      · exact hx
      · exact absurd ⟨hne, hsub⟩ h1

/-- Membership after the inner subset-elimination loop over a list. -/
theorem foldl_inferBody_mem (K : List Sentence) (a : Sentence) :
    ∀ (L acc : List Sentence) (t : Sentence),
      t ∈ L.foldl (inferBody K a) acc ↔
        t ∈ acc ∨
          (t ∉ K ∧ ∃ s2 ∈ L, a ≠ s2 ∧ a.cells ⊆ s2.cells ∧ t = derive a s2) := by
  intro L
  induction L with
  | nil => simp
  | cons b L ih =>
    intro acc t
    rw [List.foldl_cons, ih, inferBody_mem]
    constructor
    · rintro ((hx | ⟨hK, hne, hsub, rfl⟩) | ⟨hK, s2, hs2, hne, hsub, rfl⟩)
      · exact Or.inl hx
      · exact Or.inr ⟨hK, b, List.mem_cons_self b L, hne, hsub, rfl⟩
      · exact Or.inr ⟨hK, s2, List.mem_cons_of_mem b hs2, hne, hsub, rfl⟩
    · rintro (hx | ⟨hK, s2, hs2, hne, hsub, rfl⟩)
      · exact Or.inl (Or.inl hx)
      · rcases List.mem_cons.mp hs2 with rfl | hs2
        · exact Or.inl (Or.inr ⟨hK, hne, hsub, rfl⟩)
        · exact Or.inr ⟨hK, s2, hs2, hne, hsub, rfl⟩

/-- Membership after the outer subset-elimination loop over a list. -/
theorem foldl_inferInner_mem (K : List Sentence) :
    ∀ (L acc : List Sentence) (t : Sentence),
      t ∈ L.foldl (fun acc s1 => inferInner K s1 acc) acc ↔
        t ∈ acc ∨
          (t ∉ K ∧ ∃ s1 ∈ L, ∃ s2 ∈ K,
            s1 ≠ s2 ∧ s1.cells ⊆ s2.cells ∧ t = derive s1 s2) := by
  intro L
  induction L with
  | nil => simp
  | cons b L ih =>
    intro acc t
    rw [List.foldl_cons, ih]
    unfold inferInner
    rw [foldl_inferBody_mem]
    constructor
    · rintro ((hx | ⟨hK, s2, hs2, hne, hsub, rfl⟩) |
        ⟨hK, s1, hs1, s2, hs2, hne, hsub, rfl⟩)
      · exact Or.inl hx
      · exact Or.inr ⟨hK, b, List.mem_cons_self b L, s2, hs2, hne, hsub, rfl⟩
      · exact Or.inr ⟨hK, s1, List.mem_cons_of_mem b hs1, s2, hs2, hne, hsub, rfl⟩
    · rintro (hx | ⟨hK, s1, hs1, s2, hs2, hne, hsub, rfl⟩)
      · exact Or.inl (Or.inl hx)
      · rcases List.mem_cons.mp hs1 with rfl | hs1
        · exact Or.inl (Or.inr ⟨hK, s2, hs2, hne, hsub, rfl⟩)
        · exact Or.inr ⟨hK, s1, hs1, s2, hs2, hne, hsub, rfl⟩

/-- The `new_knowledge` list of `infer_new_sentences` holds exactly the
derived sentences of subset pairs that are not already in the knowledge
base. -/
theorem inferNew_mem (K : List Sentence) (t : Sentence) :
    t ∈ inferNew K ↔
      t ∉ K ∧ ∃ s1 ∈ K, ∃ s2 ∈ K,
        s1 ≠ s2 ∧ s1.cells ⊆ s2.cells ∧ t = derive s1 s2 := by
  rw [inferNew, foldl_inferInner_mem]
  simp

/-- One step of the inner loop preserves freedom from duplicates. -/
theorem inferBody_nodup (K : List Sentence) (a : Sentence)
    (acc : List Sentence) (s2 : Sentence) (h : acc.Nodup) :
    (inferBody K a acc s2).Nodup := by
  unfold inferBody
  by_cases h1 : a ≠ s2 ∧ a.cells ⊆ s2.cells
  · rw [if_pos h1]
    by_cases h2 : derive a s2 ∉ K ∧ derive a s2 ∉ acc
    · rw [if_pos h2]
      simp [List.nodup_append, h, h2.2]
    · rwa [if_neg h2]
  · rwa [if_neg h1]

/-- The inner loop preserves freedom from duplicates. -/
theorem foldl_inferBody_nodup (K : List Sentence) (a : Sentence) :
    ∀ (L acc : List Sentence), acc.Nodup →
      (L.foldl (inferBody K a) acc).Nodup := by
  intro L
  induction L with
  | nil => exact fun acc h => h
  | cons b L ih =>
    intro acc h
    exact ih _ (inferBody_nodup K a acc b h)

/-- The staged list of `infer_new_sentences` has no duplicates. -/
theorem inferNew_nodup (K : List Sentence) : (inferNew K).Nodup := by
  rw [inferNew]
  have : ∀ (L acc : List Sentence), acc.Nodup →
      (L.foldl (fun acc s1 => inferInner K s1 acc) acc).Nodup := by
    intro L
    induction L with
    | nil => exact fun acc h => h
    | cons b L ih =>
      intro acc h
      exact ih _ (foldl_inferBody_nodup K b K acc h)
  exact this K [] List.nodup_nil

end Mines

namespace Mines

/-- `mark_mine` on the whole state never puts a marked-cell into a sentence:
it only erases, and the marked cell leaves every sentence. -/
theorem nnm_mark_mine (M0 S0 : Finset Cell) (s : AIState) (c : Cell)
    (h : NoNewMarks M0 S0 s) : NoNewMarks M0 S0 (s.mark_mine c) := by
  intro t' ht' x hx
  rw [mark_mine_knowledge] at ht'
  rcases List.mem_map.mp ht' with ⟨t, ht, rfl⟩
  rcases Sentence.mem_mark_mine.mp hx with ⟨hxt, hxc⟩
  refine ⟨fun hm => ?_, fun hs => (h t ht x hxt).2 hs⟩
  rw [mark_mine_mines, Finset.mem_insert] at hm
  rcases hm with rfl | hm
  · exact absurd rfl hxc
  · exact (h t ht x hxt).1 hm

/-- Symmetric statement for `mark_safe`. -/
theorem nnm_mark_safe (M0 S0 : Finset Cell) (s : AIState) (c : Cell)
    (h : NoNewMarks M0 S0 s) : NoNewMarks M0 S0 (s.mark_safe c) := by
  intro t' ht' x hx
  rw [mark_safe_knowledge] at ht'
  rcases List.mem_map.mp ht' with ⟨t, ht, rfl⟩
  rcases Sentence.mem_mark_safe.mp hx with ⟨hxt, hxc⟩
  refine ⟨fun hm => (h t ht x hxt).1 hm, fun hs => ?_⟩
  rw [mark_safe_safes, Finset.mem_insert] at hs
  rcases hs with rfl | hs
  · exact absurd rfl hxc
  · exact (h t ht x hxt).2 hs

theorem nnm_fold_mine (M0 S0 : Finset Cell) :
    ∀ (l : List Cell) (s : AIState), NoNewMarks M0 S0 s →
      NoNewMarks M0 S0 (l.foldl AIState.mark_mine s) := by
  intro l
  induction l with
  | nil => exact fun s h => h
  | cons c l ih => exact fun s h => ih _ (nnm_mark_mine M0 S0 s c h)

theorem nnm_fold_safe (M0 S0 : Finset Cell) :
    ∀ (l : List Cell) (s : AIState), NoNewMarks M0 S0 s →
      NoNewMarks M0 S0 (l.foldl AIState.mark_safe s) := by
  intro l
  induction l with
  | nil => exact fun s h => h
  | cons c l ih => exact fun s h => ih _ (nnm_mark_safe M0 S0 s c h)

theorem nnm_process (M0 S0 : Finset Cell) (s : AIState) (i : ℕ)
    (h : NoNewMarks M0 S0 s) : NoNewMarks M0 S0 (process_sentence s i) := by
  have h1 : NoNewMarks M0 S0 (mine_phase s i) := by
    unfold mine_phase
    split
    · split
      · exact nnm_fold_mine M0 S0 _ s h
      · exact h
    · exact h
  unfold process_sentence
  revert h1
  generalize mine_phase s i = s1
  intro h1
  unfold safe_phase
  split
  · exact nnm_fold_safe M0 S0 _ _ h1
  · exact h1

theorem nnm_propagate (M0 S0 : Finset Cell) (s : AIState)
    (h : NoNewMarks M0 S0 s) : NoNewMarks M0 S0 (propagate s) := by
  unfold propagate
  have : ∀ (l : List ℕ) (s : AIState), NoNewMarks M0 S0 s →
      NoNewMarks M0 S0 (l.foldl process_sentence s) := by
    intro l
    induction l with
    | nil => exact fun s h => h
    | cons i l ih => exact fun s h => ih _ (nnm_process M0 S0 s i h)
  exact this _ s h

theorem nnm_infer (M0 S0 : Finset Cell) (s : AIState)
    (h : NoNewMarks M0 S0 s) : NoNewMarks M0 S0 (infer_new_sentences s) := by
  intro t' ht' x hx
  rw [infer_knowledge, List.mem_append] at ht'
  rcases ht' with ht' | ht'
  · exact h t' ht' x hx
  · rcases (inferNew_mem _ _).mp ht' with ⟨_, s1, _, s2, hs2, _, _, rfl⟩
    have hx2 : x ∈ s2.cells := Finset.mem_sdiff.mp hx |>.1
    exact h s2 hs2 x hx2

/-- After the ingest phase, no sentence contains a cell of `mines`, and a
cell of `safes` occurring in a sentence was already in `safes` before the
call. -/
theorem nnm_ingest (s : AIState) (c : Cell) (n : ℤ) :
    NoNewMarks s.mines s.safes (ingest s c n) := by
  intro t' ht' x hx
  rw [ingest_knowledge, List.mem_append] at ht'
  rcases ht' with ht' | ht'
  · rcases List.mem_map.mp ht' with ⟨t, _, rfl⟩
    rcases Sentence.mem_mark_safe.mp hx with ⟨_, hxc⟩
    refine ⟨fun hm => by rwa [ingest_mines] at hm, fun hs => ?_⟩
    rw [ingest_safes, Finset.mem_insert] at hs
    rcases hs with rfl | hs
    · exact absurd rfl hxc
    · exact hs
  · rw [List.mem_singleton] at ht'
    subst ht'
    rw [List.mem_toFinset, List.mem_filter] at hx
    have hb := hx.2
    simp only [Bool.and_eq_true, decide_eq_true_eq] at hb
    refine ⟨fun hm => ?_, fun hs => ?_⟩
    · rw [ingest_mines] at hm
      exact absurd hm hb.2
    · rw [ingest_safes] at hs
      exact absurd hs hb.1.2

end Mines

namespace Mines

theorem fold_mine_moves :
    ∀ (l : List Cell) (s : AIState),
      (l.foldl AIState.mark_mine s).moves_made = s.moves_made := by
  intro l
  induction l with
  | nil => exact fun s => rfl
  | cons c l ih => intro s; rw [List.foldl_cons, ih, mark_mine_moves]

theorem fold_mine_height :
    ∀ (l : List Cell) (s : AIState),
      (l.foldl AIState.mark_mine s).height = s.height := by
  intro l
  induction l with
  | nil => exact fun s => rfl
  | cons c l ih => intro s; rw [List.foldl_cons, ih, mark_mine_height]

theorem fold_mine_width :
    ∀ (l : List Cell) (s : AIState),
      (l.foldl AIState.mark_mine s).width = s.width := by
  intro l
  induction l with
  | nil => exact fun s => rfl
  | cons c l ih => intro s; rw [List.foldl_cons, ih, mark_mine_width]

theorem fold_mine_safes :
    ∀ (l : List Cell) (s : AIState),
      (l.foldl AIState.mark_mine s).safes = s.safes := by
  intro l
  induction l with
  | nil => exact fun s => rfl
  | cons c l ih => intro s; rw [List.foldl_cons, ih, mark_mine_safes]

theorem fold_mine_mines_subset :
    ∀ (l : List Cell) (s : AIState),
      s.mines ⊆ (l.foldl AIState.mark_mine s).mines := by
  intro l
  induction l with
  | nil => exact fun s => Finset.Subset.refl _
  | cons c l ih =>
    intro s
    rw [List.foldl_cons]
    exact fun x hx => ih _ (by rw [mark_mine_mines]; exact Finset.mem_insert_of_mem hx)

theorem fold_safe_moves :
    ∀ (l : List Cell) (s : AIState),
      (l.foldl AIState.mark_safe s).moves_made = s.moves_made := by
  intro l
  induction l with
  | nil => exact fun s => rfl
  | cons c l ih => intro s; rw [List.foldl_cons, ih, mark_safe_moves]

theorem fold_safe_height :
    ∀ (l : List Cell) (s : AIState),
      (l.foldl AIState.mark_safe s).height = s.height := by
  intro l
  induction l with
  | nil => exact fun s => rfl
  | cons c l ih => intro s; rw [List.foldl_cons, ih, mark_safe_height]

theorem fold_safe_width :
    ∀ (l : List Cell) (s : AIState),
      (l.foldl AIState.mark_safe s).width = s.width := by
  intro l
  induction l with
  | nil => exact fun s => rfl
  | cons c l ih => intro s; rw [List.foldl_cons, ih, mark_safe_width]

theorem fold_safe_mines :
    ∀ (l : List Cell) (s : AIState),
      (l.foldl AIState.mark_safe s).mines = s.mines := by
  intro l
  induction l with
  | nil => exact fun s => rfl
  | cons c l ih => intro s; rw [List.foldl_cons, ih, mark_safe_mines]

theorem fold_safe_safes_subset :
    ∀ (l : List Cell) (s : AIState),
      s.safes ⊆ (l.foldl AIState.mark_safe s).safes := by
  intro l
  induction l with
  | nil => exact fun s => Finset.Subset.refl _
  | cons c l ih =>
    intro s
    rw [List.foldl_cons]
    exact fun x hx => ih _ (by rw [mark_safe_safes]; exact Finset.mem_insert_of_mem hx)

theorem process_moves (s : AIState) (i : ℕ) :
    (process_sentence s i).moves_made = s.moves_made := by
  unfold process_sentence
  have h1 : (mine_phase s i).moves_made = s.moves_made := by
    unfold mine_phase
    split
    · split
      · exact fold_mine_moves _ _
      · rfl
    · rfl
  rw [← h1]
  generalize mine_phase s i = s1
  unfold safe_phase
  split
  · exact fold_safe_moves _ _
  · rfl

theorem process_height (s : AIState) (i : ℕ) :
    (process_sentence s i).height = s.height := by
  unfold process_sentence
  have h1 : (mine_phase s i).height = s.height := by
    unfold mine_phase
    split
    · split
      · exact fold_mine_height _ _
      · rfl
    · rfl
  rw [← h1]
  generalize mine_phase s i = s1
  unfold safe_phase
  split
  · exact fold_safe_height _ _
  · rfl

theorem process_width (s : AIState) (i : ℕ) :
    (process_sentence s i).width = s.width := by
  unfold process_sentence
  have h1 : (mine_phase s i).width = s.width := by
    unfold mine_phase
    split
    · split
      · exact fold_mine_width _ _
      · rfl
    · rfl
  rw [← h1]
  generalize mine_phase s i = s1
  unfold safe_phase
  split
  · exact fold_safe_width _ _
  · rfl

theorem process_safes_subset (s : AIState) (i : ℕ) :
    s.safes ⊆ (process_sentence s i).safes := by
  unfold process_sentence
  have h1 : s.safes ⊆ (mine_phase s i).safes := by
    unfold mine_phase
    split
    · split
      · unfold mark_mine_all
        rw [fold_mine_safes]
      · exact Finset.Subset.refl _
    · exact Finset.Subset.refl _
  refine Finset.Subset.trans h1 ?_
  generalize mine_phase s i = s1
  unfold safe_phase
  split
  · exact fold_safe_safes_subset _ _
  · exact Finset.Subset.refl _

theorem process_mines_subset (s : AIState) (i : ℕ) :
    s.mines ⊆ (process_sentence s i).mines := by
  unfold process_sentence
  have h1 : s.mines ⊆ (mine_phase s i).mines := by
    unfold mine_phase
    split
    · split
      · exact fold_mine_mines_subset _ _
      · exact Finset.Subset.refl _
    · exact Finset.Subset.refl _
  refine Finset.Subset.trans h1 ?_
  generalize mine_phase s i = s1
  unfold safe_phase
  split
  · unfold mark_safe_all
    rw [fold_safe_mines]
  · exact Finset.Subset.refl _

theorem propagate_moves (s : AIState) :
    (propagate s).moves_made = s.moves_made := by
  unfold propagate
  generalize List.range s.knowledge.length = l
  induction l generalizing s with
  | nil => rfl
  | cons i l ih => rw [List.foldl_cons, ih, process_moves]

theorem propagate_height (s : AIState) :
    (propagate s).height = s.height := by
  unfold propagate
  generalize List.range s.knowledge.length = l
  induction l generalizing s with
  | nil => rfl
  | cons i l ih => rw [List.foldl_cons, ih, process_height]

theorem propagate_width (s : AIState) :
    (propagate s).width = s.width := by
  unfold propagate
  generalize List.range s.knowledge.length = l
  induction l generalizing s with
  | nil => rfl
  | cons i l ih => rw [List.foldl_cons, ih, process_width]

theorem propagate_safes_subset (s : AIState) :
    s.safes ⊆ (propagate s).safes := by
  unfold propagate
  generalize List.range s.knowledge.length = l
  induction l generalizing s with
  | nil => exact Finset.Subset.refl _
  | cons i l ih =>
    rw [List.foldl_cons]
    exact Finset.Subset.trans (process_safes_subset s i) (ih _)

theorem propagate_mines_subset (s : AIState) :
    s.mines ⊆ (propagate s).mines := by
  unfold propagate
  generalize List.range s.knowledge.length = l
  induction l generalizing s with
  | nil => exact Finset.Subset.refl _
  | cons i l ih =>
    rw [List.foldl_cons]
    exact Finset.Subset.trans (process_mines_subset s i) (ih _)

/-- `add_knowledge` records exactly the revealed cell in `moves_made`. -/
theorem add_knowledge_moves (s : AIState) (c : Cell) (n : ℤ) :
    (add_knowledge s c n).moves_made = insert c s.moves_made := by
  unfold add_knowledge
  rw [infer_moves, propagate_moves, ingest_moves]

/-- The revealed cell is in `safes` after `add_knowledge`. -/
theorem add_knowledge_safe_mem (s : AIState) (c : Cell) (n : ℤ) :
    c ∈ (add_knowledge s c n).safes := by
  unfold add_knowledge
  rw [infer_safes]
  exact propagate_safes_subset _ (by rw [ingest_safes]; exact Finset.mem_insert_self c _)

end Mines

namespace Mines

/-- Marking a genuine mine preserves a sentence's exact mine count. -/
theorem ss_mark_mine {M : Finset Cell} {t : Sentence} {c : Cell}
    (h : SoundSentence M t) (hc : c ∈ M) :
    SoundSentence M (t.mark_mine c) := by
  unfold Sentence.mark_mine
  by_cases hm : c ∈ t.cells
  · rw [if_pos hm]
    unfold SoundSentence at h ⊢
    have hmem : c ∈ t.cells ∩ M := Finset.mem_inter.mpr ⟨hm, hc⟩
    have he : t.cells.erase c ∩ M = (t.cells ∩ M).erase c := by
      ext x
      simp only [Finset.mem_inter, Finset.mem_erase]
      tauto
    simp only
    rw [he, Finset.card_erase_of_mem hmem]
    have hpos : 1 ≤ (t.cells ∩ M).card := Finset.card_pos.mpr ⟨c, hmem⟩
    rw [Nat.cast_sub hpos]
    omega
  · rwa [if_neg hm]

/-- Marking a genuine non-mine safe preserves a sentence's exact mine
count. -/
theorem ss_mark_safe {M : Finset Cell} {t : Sentence} {c : Cell}
    (h : SoundSentence M t) (hc : c ∉ M) :
    SoundSentence M (t.mark_safe c) := by
  unfold Sentence.mark_safe
  by_cases hm : c ∈ t.cells
  · rw [if_pos hm]
    unfold SoundSentence at h ⊢
    have he : t.cells.erase c ∩ M = t.cells ∩ M := by
      ext x
      simp only [Finset.mem_inter, Finset.mem_erase]
      constructor
      · tauto
      · rintro ⟨hx, hxM⟩
        exact ⟨⟨fun e => hc (e ▸ hxM), hx⟩, hxM⟩
    simp only
    rw [he]
    exact h
  · rwa [if_neg hm]

theorem sound_mark_mine {M : Finset Cell} {s : AIState} {c : Cell}
    (h : Sound M s) (hc : c ∈ M) : Sound M (s.mark_mine c) := by
  obtain ⟨h1, h2, h3, h4⟩ := h
  refine ⟨?_, ?_, ?_, ?_⟩
  · rw [mark_mine_mines]
    exact Finset.insert_subset hc h1
  · rw [mark_mine_safes]
    exact h2
  · rw [mark_mine_knowledge]
    intro t' ht'
    rcases List.mem_map.mp ht' with ⟨t, ht, rfl⟩
    exact ss_mark_mine (h3 t ht) hc
  · intro x hx
    rw [mark_mine_height, mark_mine_width]
    exact h4 x hx

theorem sound_mark_safe {M : Finset Cell} {s : AIState} {c : Cell}
    (h : Sound M s) (hc : c ∉ M) : Sound M (s.mark_safe c) := by
  obtain ⟨h1, h2, h3, h4⟩ := h
  refine ⟨?_, ?_, ?_, ?_⟩
  · rw [mark_safe_mines]
    exact h1
  · rw [mark_safe_safes]
    intro x hx
    rcases Finset.mem_insert.mp hx with rfl | hx
    · exact hc
    · exact h2 x hx
  · rw [mark_safe_knowledge]
    intro t' ht'
    rcases List.mem_map.mp ht' with ⟨t, ht, rfl⟩
    exact ss_mark_safe (h3 t ht) hc
  · intro x hx
    rw [mark_safe_height, mark_safe_width]
    exact h4 x hx

theorem sound_fold_mine {M : Finset Cell} :
    ∀ (l : List Cell) (s : AIState), (∀ c ∈ l, c ∈ M) → Sound M s →
      Sound M (l.foldl AIState.mark_mine s) := by
  intro l
  induction l with
  | nil => exact fun s _ h => h
  | cons c l ih =>
    intro s hl h
    rw [List.foldl_cons]
    exact ih _ (fun x hx => hl x (List.mem_cons_of_mem c hx))
      (sound_mark_mine h (hl c (List.mem_cons_self c l)))

theorem sound_fold_safe {M : Finset Cell} :
    ∀ (l : List Cell) (s : AIState), (∀ c ∈ l, c ∉ M) → Sound M s →
      Sound M (l.foldl AIState.mark_safe s) := by
  intro l
  induction l with
  | nil => exact fun s _ h => h
  | cons c l ih =>
    intro s hl h
    rw [List.foldl_cons]
    exact ih _ (fun x hx => hl x (List.mem_cons_of_mem c hx))
      (sound_mark_safe h (hl c (List.mem_cons_self c l)))

/-- Membership in `insertCell`. -/
theorem mem_insertCell {x c : Cell} :
    ∀ {l : List Cell}, x ∈ insertCell c l ↔ x = c ∨ x ∈ l := by
  intro l
  induction l with
  | nil => simp [insertCell]
  | cons y ys ih =>
    unfold insertCell
    by_cases h : cellLe c y
    · rw [if_pos h]
      simp
    · rw [if_neg h]
      simp only [List.mem_cons, ih]
      tauto

/-- `sortedCells` lists exactly the members of the set. -/
theorem mem_sortedCells {x : Cell} {t : Finset Cell} :
    x ∈ sortedCells t ↔ x ∈ t := by
  unfold sortedCells
  rw [Finset.mem_def]
  refine Multiset.induction_on t.val ?_ ?_
  · simp
  · intro a m ih
    rw [Multiset.foldr_cons, mem_insertCell, ih]
    simp

/-- A sentence whose `known_mines` fires has all its cells mined. -/
theorem known_mines_sub {M : Finset Cell} {t : Sentence} {ms : Finset Cell}
    (h : SoundSentence M t) (hk : t.known_mines = some ms) :
    ms = t.cells ∧ t.cells ⊆ M := by
  unfold Sentence.known_mines at hk
  split_ifs at hk with hcond
  · have hms : ms = t.cells := (Option.some_inj.mp hk).symm
    have hcard : (t.cells ∩ M).card = t.cells.card := by
      unfold SoundSentence at h
      omega
    have heq : t.cells ∩ M = t.cells :=
      Finset.eq_of_subset_of_card_le Finset.inter_subset_left (le_of_eq hcard.symm)
    refine ⟨hms, fun x hx => ?_⟩
    have hx2 : x ∈ t.cells ∩ M := heq.symm ▸ hx
    exact (Finset.mem_inter.mp hx2).2

/-- The cells of `known_safes` of a sound sentence are never mined. -/
theorem known_safes_not_mem {M : Finset Cell} {t : Sentence}
    (h : SoundSentence M t) : ∀ c ∈ t.known_safes, c ∉ M := by
  unfold Sentence.known_safes
  split_ifs with hcond
  · intro c hc hcM
    unfold SoundSentence at h
    rw [hcond] at h
    have : c ∈ t.cells ∩ M := Finset.mem_inter.mpr ⟨hc, hcM⟩
    have h0 : (t.cells ∩ M).card = 0 := by omega
    rw [Finset.card_eq_zero] at h0
    rw [h0] at this
    exact absurd this (Finset.not_mem_empty c)
  · intro c hc
    exact absurd hc (Finset.not_mem_empty c)

theorem sound_mine_phase {M : Finset Cell} {s : AIState} (i : ℕ)
    (h : Sound M s) : Sound M (mine_phase s i) := by
  unfold mine_phase
  split
  · rename_i t heqt
    split
    · rename_i ms heqm
      have ht : t ∈ s.knowledge := List.getElem?_mem heqt
      obtain ⟨hms, hsub⟩ := known_mines_sub (h.2.2.1 t ht) heqm
      unfold mark_mine_all
      refine sound_fold_mine _ _ (fun c hc => ?_) h
      rw [mem_sortedCells] at hc
      exact hsub (hms ▸ hc)
    · exact h
  · exact h

theorem sound_safe_phase {M : Finset Cell} {s : AIState} (i : ℕ)
    (h : Sound M s) : Sound M (safe_phase s i) := by
  unfold safe_phase
  split
  · rename_i t heqt
    have ht : t ∈ s.knowledge := List.getElem?_mem heqt
    unfold mark_safe_all
    refine sound_fold_safe _ _ (fun c hc => ?_) h
    rw [mem_sortedCells] at hc
    exact known_safes_not_mem (h.2.2.1 t ht) c hc
  · exact h

theorem sound_process {M : Finset Cell} {s : AIState} (i : ℕ)
    (h : Sound M s) : Sound M (process_sentence s i) := by
  unfold process_sentence
  exact sound_safe_phase i (sound_mine_phase i h)

theorem sound_propagate {M : Finset Cell} {s : AIState}
    (h : Sound M s) : Sound M (propagate s) := by
  unfold propagate
  generalize List.range s.knowledge.length = l
  induction l generalizing s with
  | nil => exact h
  | cons i l ih =>
    rw [List.foldl_cons]
    exact ih (sound_process i h)

/-- A derived sentence of two sound sentences is sound. -/
theorem sound_derive {M : Finset Cell} {s1 s2 : Sentence}
    (h1 : SoundSentence M s1) (h2 : SoundSentence M s2)
    (hsub : s1.cells ⊆ s2.cells) : SoundSentence M (derive s1 s2) := by
  unfold SoundSentence derive at *
  simp only
  have he : (s2.cells \ s1.cells) ∩ M = (s2.cells ∩ M) \ (s1.cells ∩ M) := by
    ext x
    simp only [Finset.mem_inter, Finset.mem_sdiff]
    tauto
  have hsub2 : s1.cells ∩ M ⊆ s2.cells ∩ M := by
    intro x hx
    rcases Finset.mem_inter.mp hx with ⟨ha, hb⟩
    exact Finset.mem_inter.mpr ⟨hsub ha, hb⟩
  rw [he, Finset.card_sdiff hsub2, Nat.cast_sub (Finset.card_le_card hsub2)]
  omega

theorem sound_infer {M : Finset Cell} {s : AIState}
    (h : Sound M s) : Sound M (infer_new_sentences s) := by
  obtain ⟨h1, h2, h3, h4⟩ := h
  refine ⟨h1, h2, ?_, h4⟩
  rw [infer_knowledge]
  intro t ht
  rcases List.mem_append.mp ht with ht | ht
  · exact h3 t ht
  · rcases (inferNew_mem _ _).mp ht with ⟨_, s1, hs1, s2, hs2, _, hsub, rfl⟩
    exact sound_derive (h3 s1 hs1) (h3 s2 hs2) hsub

end Mines

namespace Mines

/-- The eight neighbours of a cell are pairwise distinct. -/
theorem neighbors_nodup (c : Cell) : (neighbors c).Nodup := by
  unfold neighbors
  refine List.Nodup.map ?_ (by decide)
  intro d1 d2 hd
  have ha := congrArg Prod.fst hd
  have hb := congrArg Prod.snd hd
  dsimp only at ha hb
  refine Prod.ext_iff.mpr ⟨by omega, by omega⟩

/-- Split a count over a predicate equivalent to an exclusive disjunction of
two predicates. -/
theorem countP_add_split {α : Type} (p q r : α → Bool) :
    ∀ l : List α,
      (∀ x ∈ l, (p x = true ↔ (q x = true ∨ r x = true)) ∧
        ¬(q x = true ∧ r x = true)) →
      l.countP p = l.countP q + l.countP r := by
  intro l
  induction l with
  | nil => intro _; rfl
  | cons a l ih =>
    intro h
    have hx := h a (List.mem_cons_self a l)
    rw [List.countP_cons, List.countP_cons, List.countP_cons,
      ih (fun x hxl => h x (List.mem_cons_of_mem a hxl))]
    by_cases hq : q a = true <;> by_cases hr : r a = true
    · exact absurd ⟨hq, hr⟩ hx.2
    · have hp : p a = true := hx.1.mpr (Or.inl hq)
      rw [if_pos hp, if_pos hq, if_neg hr]
      omega
    · have hp : p a = true := hx.1.mpr (Or.inr hr)
      rw [if_pos hp, if_neg hq, if_pos hr]
      omega
    · have hp : ¬ p a = true := fun hp => by
        rcases hx.1.mp hp with hh | hh
        · exact hq hh
        · exact hr hh
      rw [if_neg hp, if_neg hq, if_neg hr]
      omega

/-- Ingesting a reveal of a non-mine cell with its true neighbour count
preserves soundness: the appended sentence counts its mined cells exactly. -/
theorem sound_ingest {M : Finset Cell} {s : AIState} {c : Cell}
    (h : Sound M s) (hc : c ∉ M) :
    Sound M (ingest s c (nearby_mines s.height s.width M c)) := by
  obtain ⟨h1, h2, h3, h4⟩ := h
  refine ⟨?_, ?_, ?_, ?_⟩
  · rw [ingest_mines]
    exact h1
  · rw [ingest_safes]
    intro x hx
    rcases Finset.mem_insert.mp hx with rfl | hx
    · exact hc
    · exact h2 x hx
  · rw [ingest_knowledge]
    intro t ht
    rcases List.mem_append.mp ht with ht | ht
    · rcases List.mem_map.mp ht with ⟨u, hu, rfl⟩
      exact ss_mark_safe (h3 u hu) hc
    · rw [List.mem_singleton] at ht
      subst ht
      have key :
          ((((neighbors c).filter
              (fun x => in_range s.height s.width x &&
                decide (x ∉ insert c s.safes) && decide (x ∉ s.mines))).toFinset
            ∩ M).card : ℤ) =
            nearby_mines s.height s.width M c -
              (((neighbors c).countP (fun x => decide (x ∈ s.mines)) : ℕ) : ℤ) := by
        have hndN : (neighbors c).Nodup := neighbors_nodup c
        have hnd : ((neighbors c).filter
            (fun x => in_range s.height s.width x &&
              decide (x ∉ insert c s.safes) && decide (x ∉ s.mines))).Nodup :=
          List.Nodup.filter _ hndN
        have hset : ((neighbors c).filter
            (fun x => in_range s.height s.width x &&
              decide (x ∉ insert c s.safes) && decide (x ∉ s.mines))).toFinset
              ∩ M =
            (((neighbors c).filter
              (fun x => in_range s.height s.width x &&
                decide (x ∉ insert c s.safes) && decide (x ∉ s.mines))).filter
              (fun x => decide (x ∈ M))).toFinset := by
          ext x
          simp only [Finset.mem_inter, List.mem_toFinset, List.mem_filter,
            Bool.and_eq_true, decide_eq_true_eq]
          try tauto
        rw [hset,
          List.toFinset_card_of_nodup (List.Nodup.filter _ hnd),
          ← List.countP_eq_length_filter, List.countP_filter]
        have hsplit := countP_add_split
          (fun x => in_range s.height s.width x && decide (x ∈ M))
          (fun x => decide (x ∈ s.mines))
          (fun x => decide (x ∈ M) &&
            (in_range s.height s.width x &&
              decide (x ∉ insert c s.safes) && decide (x ∉ s.mines)))
          (neighbors c)
          (by
            intro x _
            simp only [Bool.and_eq_true, decide_eq_true_eq]
            constructor
            · constructor
              · rintro ⟨hr, hxM⟩
                by_cases hxmine : x ∈ s.mines
                · exact Or.inl hxmine
                · refine Or.inr ⟨hxM, ⟨hr, ?_⟩, hxmine⟩
                  intro hins
                  rcases Finset.mem_insert.mp hins with rfl | hins
                  · exact hc hxM
                  · exact h2 x hins hxM
              · rintro (hxmine | ⟨hxM, ⟨hr, _⟩, _⟩)
                · exact ⟨h4 x (h1 hxmine), h1 hxmine⟩
                · exact ⟨hr, hxM⟩
            · rintro ⟨hxmine, _, _, hnot⟩
              exact hnot hxmine)
        unfold nearby_mines
        rw [hsplit]
        push_cast
        ring
      exact key
  · intro x hx
    rw [ingest_height, ingest_width]
    exact h4 x hx

/-- Every state reachable by a board-consistent play is sound for the hidden
mine set. -/
theorem plays_sound {M : Finset Cell} {s : AIState}
    (h : Plays M s) : Sound M s := by
  induction h with
  | init hw w hM =>
    refine ⟨?_, ?_, ?_, hM⟩
    · intro x hx
      exact absurd hx (Finset.not_mem_empty x)
    · intro x hx
      exact absurd hx (Finset.not_mem_empty x)
    · intro t ht
      exact absurd ht (List.not_mem_nil t)
  | mark_mine s c hs hc ih => exact sound_mark_mine ih hc
  | mark_safe s c hs hc ih => exact sound_mark_safe ih hc
  | add s c hs hc ih =>
    unfold add_knowledge
    have hi : Sound M (ingest s c (nearby_mines s.height s.width M c)) :=
      sound_ingest ih hc
    exact sound_infer (sound_propagate hi)

end Mines

namespace Mines

/-- The candidate list of `make_random_move` holds exactly the in-range
cells that are neither played nor known mines. -/
theorem mem_candidate_moves {s : AIState} {x : Cell} :
    x ∈ candidate_moves s ↔
      in_range s.height s.width x = true ∧
        x ∉ s.moves_made ∧ x ∉ s.mines := by
  unfold candidate_moves
  rw [List.mem_flatMap]
  constructor
  · rintro ⟨i, hi, hx⟩
    rw [List.mem_range] at hi
    rw [List.mem_filterMap] at hx
    rcases hx with ⟨j, hj, hif⟩
    rw [List.mem_range] at hj
    by_cases hP : ((i : ℤ), (j : ℤ)) ∉ s.moves_made ∧ ((i : ℤ), (j : ℤ)) ∉ s.mines
    · rw [if_pos hP] at hif
      obtain rfl : ((i : ℤ), (j : ℤ)) = x := Option.some_inj.mp hif
      refine ⟨?_, hP.1, hP.2⟩
      unfold in_range
      simp only [Bool.and_eq_true, decide_eq_true_eq]
      refine ⟨⟨⟨by omega, by omega⟩, by omega⟩, by omega⟩
    · rw [if_neg hP] at hif
      cases hif
  · rintro ⟨hr, hm, hmn⟩
    unfold in_range at hr
    simp only [Bool.and_eq_true, decide_eq_true_eq] at hr
    obtain ⟨⟨⟨hr1, hr2⟩, hr3⟩, hr4⟩ := hr
    refine ⟨x.1.toNat, by rw [List.mem_range]; omega, ?_⟩
    rw [List.mem_filterMap]
    refine ⟨x.2.toNat, by rw [List.mem_range]; omega, ?_⟩
    have hx : ((x.1.toNat : ℤ), (x.2.toNat : ℤ)) = x :=
      Prod.ext_iff.mpr ⟨Int.toNat_of_nonneg hr1, Int.toNat_of_nonneg hr3⟩
    rw [hx, if_pos ⟨hm, hmn⟩]

/-- Claim C1 counterexample: disjointness of `mines` and `safes` is not an
invariant of arbitrary call sequences — marking the same cell first as a
mine and then as safe puts it in both sets, and neither marker checks the
other set. -/
theorem disjointness_counterexample :
    Reachable (((initAI 8 8).mark_mine ((0 : ℤ), (0 : ℤ))).mark_safe
        ((0 : ℤ), (0 : ℤ))) ∧
      ((0 : ℤ), (0 : ℤ)) ∈
        (((initAI 8 8).mark_mine ((0 : ℤ), (0 : ℤ))).mark_safe
          ((0 : ℤ), (0 : ℤ))).mines ∧
      ((0 : ℤ), (0 : ℤ)) ∈
        (((initAI 8 8).mark_mine ((0 : ℤ), (0 : ℤ))).mark_safe
          ((0 : ℤ), (0 : ℤ))).safes :=
  ⟨Reachable.mark_safe _ _ (Reachable.mark_mine _ _ (Reachable.init 8 8)),
    by decide, by decide⟩

/-- Claim C1 (amended): along any play consistent with a hidden mine set
`M` inside the board (reveals of non-mine cells with their true neighbour
counts, direct marks consistent with `M`), the sets `mines` and `safes`
stay disjoint — `mines` stays inside `M` and `safes` outside it. -/
theorem mines_safes_disjoint_of_plays (M : Finset Cell) (s : AIState)
    (h : Plays M s) : s.mines ∩ s.safes = ∅ := by
  obtain ⟨h1, h2, _, _⟩ := plays_sound h
  rw [Finset.eq_empty_iff_forall_not_mem]
  intro x hx
  rcases Finset.mem_inter.mp hx with ⟨hm, hs⟩
  exact h2 x hs (h1 hm)

/-- Witness for the amended C1 at a concrete play. -/
theorem mines_safes_disjoint_of_plays_witness :
    (initAI 2 2).mines ∩ (initAI 2 2).safes = ∅ :=
  mines_safes_disjoint_of_plays ∅ (initAI 2 2)
    (Plays.init 2 2 (by decide))

/-- Claim C2: one call of `add_knowledge` runs the propagation pass once and
the subset-elimination pass once, in that order (the defining equation); the
elimination pass changes neither `mines` nor `safes`, and a constraint first
created by that pass whose `known_mines`/`known_safes` condition already
holds has none of its cells added to `mines` or `safes` during the same
call: any such cell already carried its mark before the call. -/
theorem add_knowledge_single_pass (s : AIState) (c : Cell) (n : ℤ) :
    add_knowledge s c n = infer_new_sentences (propagate (ingest s c n)) ∧
    (add_knowledge s c n).mines = (propagate (ingest s c n)).mines ∧
    (add_knowledge s c n).safes = (propagate (ingest s c n)).safes ∧
    ∀ t ∈ (add_knowledge s c n).knowledge,
      t ∉ (propagate (ingest s c n)).knowledge →
      (t.known_mines ≠ none ∨ t.known_safes ≠ ∅) →
      ∀ x ∈ t.cells,
        (x ∈ (add_knowledge s c n).mines → x ∈ s.mines) ∧
        (x ∈ (add_knowledge s c n).safes → x ∈ s.safes) := by
  refine ⟨rfl, rfl, rfl, ?_⟩
  have hnnm : NoNewMarks s.mines s.safes (add_knowledge s c n) := by
    unfold add_knowledge
    exact nnm_infer _ _ _ (nnm_propagate _ _ _ (nnm_ingest s c n))
  intro t ht _ _ x hx
  exact hnnm t ht x hx

/-- Witness for C2: with prior knowledge `{(0,1),(1,0)} = 1` on a 3×3 board,
revealing `(0,0)` with count 1 derives `{(1,1)} = 0` in the elimination
pass; its cell is touched by neither global set during that call. -/
theorem add_knowledge_single_pass_witness :
    ∀ x ∈ (Sentence.mk {((1 : ℤ), (1 : ℤ))} 0).cells,
      (x ∈ (add_knowledge stPair ((0 : ℤ), (0 : ℤ)) 1).mines →
        x ∈ stPair.mines) ∧
      (x ∈ (add_knowledge stPair ((0 : ℤ), (0 : ℤ)) 1).safes →
        x ∈ stPair.safes) :=
  (add_knowledge_single_pass stPair ((0 : ℤ), (0 : ℤ)) 1).2.2.2
    ⟨{((1 : ℤ), (1 : ℤ))}, 0⟩ (by decide) (by decide) (by decide)

/-- Claim C3 counterexample: the subset-elimination pass is not idempotent.
On the knowledge base `[{a,b,c}=1, {a,b}=1, {c,d}=1]` the first run derives
`{c}=0`, and only the second run can combine it with `{c,d}=1` to derive
`{d}=1`, so the second run does add a constraint. -/
theorem infer_idempotent_counterexample :
    (infer_new_sentences (infer_new_sentences stThree)).knowledge ≠
      (infer_new_sentences stThree).knowledge := by
  decide

/-- Claim C3 (amended): a second run of the subset-elimination pass on an
otherwise untouched knowledge base can add constraints, but every constraint
it adds is derived from an ordered subset pair of which at least one member
was created by the first run; no pair of constraints both present before the
first run produces a second-run addition. -/
theorem infer_second_run_from_first_run (s : AIState) (t : Sentence)
    (h : t ∈ inferNew (infer_new_sentences s).knowledge) :
    ∃ A B : Sentence,
      A ∈ (infer_new_sentences s).knowledge ∧
      B ∈ (infer_new_sentences s).knowledge ∧
      A ≠ B ∧ A.cells ⊆ B.cells ∧
      t = ⟨B.cells \ A.cells, B.count - A.count⟩ ∧
      (A ∈ inferNew s.knowledge ∨ B ∈ inferNew s.knowledge) := by
  rcases (inferNew_mem _ _).mp h with ⟨hnot, A, hA, B, hB, hne, hsub, rfl⟩
  refine ⟨A, B, hA, hB, hne, hsub, rfl, ?_⟩
  rw [infer_knowledge, List.mem_append] at hA hB
  rcases hA with hA | hA
  · rcases hB with hB | hB
    · exfalso
      by_cases hd : derive A B ∈ s.knowledge
      · exact hnot (by rw [infer_knowledge, List.mem_append]; exact Or.inl hd)
      · have hderived : derive A B ∈ inferNew s.knowledge :=
          (inferNew_mem _ _).mpr ⟨hd, A, hA, B, hB, hne, hsub, rfl⟩
        exact hnot
          (by rw [infer_knowledge, List.mem_append]; exact Or.inr hderived)
    · exact Or.inr hB
  · exact Or.inl hA

/-- Witness for the amended C3 at the concrete state of the
counterexample. -/
theorem infer_second_run_from_first_run_witness :
    ∃ A B : Sentence,
      A ∈ (infer_new_sentences stThree).knowledge ∧
      B ∈ (infer_new_sentences stThree).knowledge ∧
      A ≠ B ∧ A.cells ⊆ B.cells ∧
      (⟨{((0 : ℤ), (4 : ℤ))}, 1⟩ : Sentence) =
        ⟨B.cells \ A.cells, B.count - A.count⟩ ∧
      (A ∈ inferNew stThree.knowledge ∨ B ∈ inferNew stThree.knowledge) :=
  infer_second_run_from_first_run stThree ⟨{((0 : ℤ), (4 : ℤ))}, 1⟩
    (by decide)

/-- Claim C4: one run of the subset-elimination pass leaves every existing
constraint in place (the new knowledge base is the old list extended) and
appends, without duplicates, exactly the constraints
`(B.cells - A.cells, B.count - A.count)` arising from ordered pairs
`(A, B)` of current constraints with `A ≠ B` (structural equality) and
`A.cells ⊆ B.cells`, skipping those equal to a constraint already present
or already staged. -/
theorem infer_new_sentences_spec (s : AIState) :
    (infer_new_sentences s).knowledge = s.knowledge ++ inferNew s.knowledge ∧
    (infer_new_sentences s).mines = s.mines ∧
    (infer_new_sentences s).safes = s.safes ∧
    (infer_new_sentences s).moves_made = s.moves_made ∧
    (inferNew s.knowledge).Nodup ∧
    ∀ t : Sentence,
      t ∈ inferNew s.knowledge ↔
        t ∉ s.knowledge ∧ ∃ A ∈ s.knowledge, ∃ B ∈ s.knowledge,
          A ≠ B ∧ A.cells ⊆ B.cells ∧
          t = ⟨B.cells \ A.cells, B.count - A.count⟩ :=
  ⟨rfl, rfl, rfl, rfl, inferNew_nodup _, fun t => inferNew_mem s.knowledge t⟩

/-- Claim C5: `known_mines` returns exactly the cell set when
`|cells| = count > 0` and nothing otherwise (the code's `count != 0` test is
equivalent to `count > 0` when `count` equals the nonnegative cardinality);
`known_safes` returns exactly the cell set when `count = 0` and the empty
set otherwise. -/
theorem known_mines_known_safes_spec (t : Sentence) :
    t.known_mines =
      (if (t.cells.card : ℤ) = t.count ∧ 0 < t.count then some t.cells
        else none) ∧
    t.known_safes = (if t.count = 0 then t.cells else ∅) := by
  constructor
  · unfold Sentence.known_mines
    have hge : (0 : ℤ) ≤ (t.cells.card : ℤ) := Int.natCast_nonneg _
    by_cases h1 : (t.cells.card : ℤ) = t.count ∧ t.count ≠ 0
    · rw [if_pos h1, if_pos ⟨h1.1, by omega⟩]
    · rw [if_neg h1, if_neg (fun h2 => h1 ⟨h2.1, by omega⟩)]
  · rfl

/-- Claim C7: `Sentence.mark_mine` removes a member cell and decrements the
count by exactly one, and does nothing when the cell is not a member. -/
theorem sentence_mark_mine_spec (t : Sentence) (c : Cell) :
    (c ∈ t.cells →
      (t.mark_mine c).cells = t.cells.erase c ∧
      c ∉ (t.mark_mine c).cells ∧
      (t.mark_mine c).count = t.count - 1) ∧
    (c ∉ t.cells → t.mark_mine c = t) := by
  constructor
  · intro hc
    unfold Sentence.mark_mine
    rw [if_pos hc]
    exact ⟨rfl, Finset.not_mem_erase c t.cells, rfl⟩
  · intro hc
    unfold Sentence.mark_mine
    rw [if_neg hc]

/-- Witness for C7 at a concrete sentence, in both branches. -/
theorem sentence_mark_mine_spec_witness :
    (((⟨{((0 : ℤ), (0 : ℤ)), ((0 : ℤ), (1 : ℤ))}, 1⟩ : Sentence).mark_mine
        ((0 : ℤ), (0 : ℤ))).cells =
      ({((0 : ℤ), (0 : ℤ)), ((0 : ℤ), (1 : ℤ))} : Finset Cell).erase
        ((0 : ℤ), (0 : ℤ)) ∧
      ((0 : ℤ), (0 : ℤ)) ∉
        ((⟨{((0 : ℤ), (0 : ℤ)), ((0 : ℤ), (1 : ℤ))}, 1⟩ : Sentence).mark_mine
          ((0 : ℤ), (0 : ℤ))).cells ∧
      ((⟨{((0 : ℤ), (0 : ℤ)), ((0 : ℤ), (1 : ℤ))}, 1⟩ : Sentence).mark_mine
        ((0 : ℤ), (0 : ℤ))).count = 1 - 1) ∧
    (⟨{((0 : ℤ), (0 : ℤ)), ((0 : ℤ), (1 : ℤ))}, 1⟩ : Sentence).mark_mine
      ((5 : ℤ), (5 : ℤ)) =
      ⟨{((0 : ℤ), (0 : ℤ)), ((0 : ℤ), (1 : ℤ))}, 1⟩ :=
  ⟨(sentence_mark_mine_spec ⟨{((0 : ℤ), (0 : ℤ)), ((0 : ℤ), (1 : ℤ))}, 1⟩
      ((0 : ℤ), (0 : ℤ))).1 (by decide),
    (sentence_mark_mine_spec ⟨{((0 : ℤ), (0 : ℤ)), ((0 : ℤ), (1 : ℤ))}, 1⟩
      ((5 : ℤ), (5 : ℤ))).2 (by decide)⟩

/-- Claim C8: `make_safe_move` returns a cell of `safes` not yet played and
returns nothing exactly when every safe cell has been played; in that
setting `make_random_move` returns a board cell in neither `moves_made` nor
`mines`, and nothing exactly when every board cell is in their union. -/
theorem move_policy_spec (s : AIState) :
    (∀ c : Cell, make_safe_move s = some c →
      c ∈ s.safes ∧ c ∉ s.moves_made) ∧
    (make_safe_move s = none ↔ ∀ c ∈ s.safes, c ∈ s.moves_made) ∧
    (∀ c : Cell, make_random_move s = some c →
      in_range s.height s.width c = true ∧
        c ∉ s.moves_made ∧ c ∉ s.mines) ∧
    (make_random_move s = none ↔
      ∀ c : Cell, in_range s.height s.width c = true →
        c ∈ s.moves_made ∨ c ∈ s.mines) := by
  refine ⟨?_, ?_, ?_, ?_⟩
  · intro c hc
    unfold make_safe_move at hc
    have h1 := List.find?_some hc
    have h2 := List.mem_of_find?_eq_some hc
    rw [mem_sortedCells] at h2
    rw [decide_eq_true_eq] at h1
    exact ⟨h2, h1⟩
  · unfold make_safe_move
    rw [List.find?_eq_none]
    constructor
    · intro h c hc
      have := h c (mem_sortedCells.mpr hc)
      rw [decide_eq_true_eq] at this
      exact not_not.mp this
    · intro h x hx
      rw [mem_sortedCells] at hx
      rw [decide_eq_true_eq]
      exact not_not.mpr (h x hx)
  · intro c hc
    unfold make_random_move at hc
    have hmem : c ∈ candidate_moves s :=
      List.mem_of_mem_head? (by rw [hc]; exact rfl)
    exact mem_candidate_moves.mp hmem
  · unfold make_random_move
    rw [List.head?_eq_none_iff, List.eq_nil_iff_forall_not_mem]
    constructor
    · intro h c hr
      by_cases hm : c ∈ s.moves_made
      · exact Or.inl hm
      · by_cases hn : c ∈ s.mines
        · exact Or.inr hn
        · exact absurd (mem_candidate_moves.mpr ⟨hr, hm, hn⟩) (h c)
    · intro h x hx
      rcases mem_candidate_moves.mp hx with ⟨hr, hm, hn⟩
      rcases h x hr with hh | hh
      · exact hm hh
      · exact hn hh

/-- Witness for C8 on a concrete one-cell board with a known safe cell. -/
theorem move_policy_spec_witness :
    (((0 : ℤ), (0 : ℤ)) ∈ stSafe.safes ∧
      ((0 : ℤ), (0 : ℤ)) ∉ stSafe.moves_made) ∧
    (in_range stSafe.height stSafe.width ((0 : ℤ), (0 : ℤ)) = true ∧
      ((0 : ℤ), (0 : ℤ)) ∉ stSafe.moves_made ∧
      ((0 : ℤ), (0 : ℤ)) ∉ stSafe.mines) :=
  ⟨(move_policy_spec stSafe).1 ((0 : ℤ), (0 : ℤ)) (by decide),
    (move_policy_spec stSafe).2.2.1 ((0 : ℤ), (0 : ℤ)) (by decide)⟩

/-- Claim C9 counterexample: nothing validates the supplied count, so a
reachable state (reveal with count 5 on a fresh 2×2 board) holds a
constraint with `count = 5 > |cells| = 3`. -/
theorem count_invariant_counterexample :
    Reachable (add_knowledge (initAI 2 2) ((0 : ℤ), (0 : ℤ)) 5) ∧
    ∃ t ∈ (add_knowledge (initAI 2 2) ((0 : ℤ), (0 : ℤ)) 5).knowledge,
      ¬ (0 ≤ t.count ∧ t.count ≤ (t.cells.card : ℤ)) :=
  ⟨Reachable.add _ _ _ (Reachable.init 2 2), by decide⟩

/-- Claim C9 (amended): along any play consistent with a hidden mine set
`M` inside the board, every constraint of the knowledge base satisfies
`0 ≤ count ≤ |cells|` — its count is exactly the number of its cells lying
in `M`. -/
theorem count_invariant_of_plays (M : Finset Cell) (s : AIState)
    (h : Plays M s) :
    ∀ t ∈ s.knowledge, 0 ≤ t.count ∧ t.count ≤ (t.cells.card : ℤ) := by
  obtain ⟨_, _, h3, _⟩ := plays_sound h
  intro t ht
  have hss := h3 t ht
  unfold SoundSentence at hss
  have hle : (t.cells ∩ M).card ≤ t.cells.card :=
    Finset.card_le_card Finset.inter_subset_left
  omega

/-- Witness for the amended C9 on a 1×2 board with mine at `(0,1)`,
revealing `(0,0)` with its true count. -/
theorem count_invariant_of_plays_witness :
    0 ≤ (Sentence.mk ∅ 0).count ∧
      (Sentence.mk ∅ 0).count ≤ ((Sentence.mk ∅ 0).cells.card : ℤ) :=
  count_invariant_of_plays {((0 : ℤ), (1 : ℤ))} _
    (Plays.add (initAI 1 2) ((0 : ℤ), (0 : ℤ))
      (Plays.init 1 2 (by decide)) (by decide))
    (Sentence.mk ∅ 0) (by decide)

end Mines

namespace Mines

/-- Claim C6 counterexample: after `add_knowledge((0,0), 3)` on a fresh 2×2
board, no constraint of the final knowledge base has the scanned cell set
`{(0,1),(1,0),(1,1)}` with count 3 — the appended constraint was immediately
resolved by the propagation pass of the same call and mutated to `∅ = 0`. -/
theorem add_knowledge_post_state_counterexample :
    (add_knowledge (initAI 2 2) ((0 : ℤ), (0 : ℤ)) 3).knowledge =
      [⟨∅, 0⟩] ∧
    ¬ ∃ t ∈ (add_knowledge (initAI 2 2) ((0 : ℤ), (0 : ℤ)) 3).knowledge,
        t.cells =
          ({((0 : ℤ), (1 : ℤ)), ((1 : ℤ), (0 : ℤ)), ((1 : ℤ), (1 : ℤ))} :
            Finset Cell) ∧ t.count = 3 := by
  constructor
  · decide
  · decide

/-- Claim C6 (amended): at the end of the ingest phase of
`add_knowledge(cell, count)` — after recording the move and marking the cell
safe, and before the propagation and elimination passes — exactly one new
constraint has been appended (the previous constraints remain, each with
`cell` marked safe); its cell set is exactly the in-bounds 8-neighbours of
`cell` in neither `safes` (which now holds `cell`) nor `mines` at scan time,
and its count is the supplied count minus the number of 8-neighbours in
`mines`.  The cell stays recorded and safe after the whole call, whose later
passes may shrink the appended constraint or append derived ones. -/
theorem ingest_spec (s : AIState) (c : Cell) (n : ℤ) :
    ∃ t : Sentence,
      (ingest s c n).knowledge =
        s.knowledge.map (fun u => u.mark_safe c) ++ [t] ∧
      (∀ x : Cell, x ∈ t.cells ↔
        x ∈ neighbors c ∧ in_range s.height s.width x = true ∧
          x ∉ insert c s.safes ∧ x ∉ s.mines) ∧
      t.count =
        n - (((neighbors c).countP (fun x => decide (x ∈ s.mines)) : ℕ) : ℤ) ∧
      (ingest s c n).moves_made = insert c s.moves_made ∧
      c ∈ (ingest s c n).safes ∧
      (add_knowledge s c n).moves_made = insert c s.moves_made ∧
      c ∈ (add_knowledge s c n).safes := by
  refine ⟨_, ingest_knowledge s c n, ?_, rfl, ingest_moves s c n, ?_, ?_, ?_⟩
  · intro x
    simp only [List.mem_toFinset, List.mem_filter, Bool.and_eq_true,
      decide_eq_true_eq]
    tauto
  · rw [ingest_safes]
    exact Finset.mem_insert_self c _
  · exact add_knowledge_moves s c n
  · exact add_knowledge_safe_mem s c n

end Mines
